import Mathlib

/-!
Verification of the container subsystem of the HowProgrammingWork C++ repository.

Three programs are embedded:

* the `std::stack` adapter demo
  (`src/C++/9. Standard Template Library (STL)/13. Stack/main.cpp`),
* the generic doubly linked list
  (`src/ProgrammingBasics/25-Generics-master/C++/2-list.cpp`),
* the weak-pointer cycle-breaking demo
  (`src/C++/6. Smart Pointers/3. WeakPointers/main.cpp`).

The linked list and the display routine are translated from the source.
`std::stack`, `std::shared_ptr` and `std::weak_ptr` are STL library types that
are not part of the repository; the Adapter Stack and the ownership-link helper
are therefore modelled from the specification (sections 4.2 and 4.3), which the
repository code only calls into.
-/

set_option linter.unusedVariables false

namespace StackAdapter

/-- The three STL containers over which `std::stack` is instantiated in the
source file (`std::deque`, `std::vector`, `std::list`); the spec calls these
the supported Backings. -/
inductive Backing
  | deque
  | vector
  | list
deriving DecidableEq, Repr

variable {T : Type}

/-- Modelled from the spec: the Backing contract operation `append_at_end`
(section 6).  Each of the three supported backings appends the element at the
end of its element sequence, exactly as `push_back` does on `std::deque`,
`std::vector` and `std::list`. -/
def append_at_end : Backing → List T → T → List T
  | Backing.deque, xs, x => xs ++ [x]
  | Backing.vector, xs, x => xs ++ [x]
  | Backing.list, xs, x => xs ++ [x]

/-- Modelled from the spec: the Backing contract operation `remove_at_end`
(section 6), `pop_back` on each of the three STL containers. -/
def remove_at_end : Backing → List T → List T
  | Backing.deque, xs => xs.dropLast
  | Backing.vector, xs => xs.dropLast
  | Backing.list, xs => xs.dropLast

/-- Modelled from the spec: the Backing contract operation `peek_at_end`
(section 6), `back` on each of the three STL containers; absent on an empty
container. -/
def peek_at_end : Backing → List T → Option T
  | Backing.deque, xs => xs.getLast?
  | Backing.vector, xs => xs.getLast?
  | Backing.list, xs => xs.getLast?

/-- Modelled from the spec: the Backing contract operation `count`
(section 6), `size` on each of the three STL containers. -/
def count : Backing → List T → Nat
  | Backing.deque, xs => xs.length
  | Backing.vector, xs => xs.length
  | Backing.list, xs => xs.length

/-- Modelled from the spec: the Backing contract operation `is_empty`
(section 6), `empty` on each of the three STL containers. -/
def is_empty : Backing → List T → Bool
  | Backing.deque, xs => xs.isEmpty
  | Backing.vector, xs => xs.isEmpty
  | Backing.list, xs => xs.isEmpty

/-- Modelled from the spec: the recoverable failure `EmptyStackError` of
section 7, raised by `pop` and `peek` on an empty Adapter Stack. -/
inductive EmptyStackError
  | emptyStack
deriving DecidableEq, Repr

/-- Modelled from the spec: the Adapter Stack of section 4.2, a LIFO view over
a pluggable Backing.  The element sequence is kept front-to-back, so the top of
the stack is the last element, as in `std::stack`. -/
structure AStack (T : Type) where
  backing : Backing
  elems : List T
deriving DecidableEq, Repr

/-- A freshly constructed Adapter Stack over backing `b`, as in
`std::stack<int> s` and its vector/list/deque variants in the source. -/
def AStack.mkEmpty (b : Backing) : AStack T :=
  { backing := b, elems := [] }

/-- Modelled from the spec: `push` delegates to `Backing.append_at_end`
(section 4.2). -/
def AStack.push (s : AStack T) (v : T) : AStack T :=
  { s with elems := append_at_end s.backing s.elems v }

/-- Modelled from the spec: `size` delegates to the backing count
(section 4.2). -/
def AStack.size (s : AStack T) : Nat :=
  count s.backing s.elems

/-- Modelled from the spec: `is_empty` delegates to the backing emptiness test
(section 4.2). -/
def AStack.is_empty (s : AStack T) : Bool :=
  StackAdapter.is_empty s.backing s.elems

/-- Modelled from the spec: `pop` fails with `EmptyStackError` if the backing
is empty, otherwise removes and returns the last element of the backing
(section 4.2).  The state-passing result makes the post-state of a failed call
explicit: it is the unchanged stack. -/
def AStack.pop (s : AStack T) : Except EmptyStackError T × AStack T :=
  if StackAdapter.is_empty s.backing s.elems then
    (Except.error EmptyStackError.emptyStack, s)
  else
    match peek_at_end s.backing s.elems with
    | some v => (Except.ok v, { s with elems := remove_at_end s.backing s.elems })
    | none => (Except.error EmptyStackError.emptyStack, s)

/-- Modelled from the spec: `peek` fails with `EmptyStackError` if the backing
is empty, otherwise returns the last element without removing it
(section 4.2). -/
def AStack.peek (s : AStack T) : Except EmptyStackError T × AStack T :=
  if StackAdapter.is_empty s.backing s.elems then
    (Except.error EmptyStackError.emptyStack, s)
  else
    match peek_at_end s.backing s.elems with
    | some v => (Except.ok v, s)
    | none => (Except.error EmptyStackError.emptyStack, s)

/-- A sequence of pushes, as in `for (int i: \x7b1,2,3,4,5\x7d) s.push(i)` in
the source. -/
def AStack.pushAll (s : AStack T) (vs : List T) : AStack T :=
  vs.foldl AStack.push s

/-- Performing `n` successive pops, collecting the popped values in order; stops early if
a pop fails. -/
def AStack.popN : AStack T → Nat → List T × AStack T
  | s, 0 => ([], s)
  | s, n + 1 =>
      match AStack.pop s with
      | (Except.ok v, s1) =>
          let r := AStack.popN s1 n
          (v :: r.1, r.2)
      | (Except.error _, s1) => ([], s1)

/-- The while-loop body of `display` in the stack demo source: repeatedly read
the top element and pop it until the stack is empty.  The loop runs at most
`size` iterations, so the initial size is used as fuel. -/
def drainAux : Nat → AStack T → List T
  | 0, _ => []
  | n + 1, s =>
      match AStack.pop s with
      | (Except.ok v, s1) => v :: drainAux n s1
      | (Except.error _, _) => []

/-- The `display` function of the stack demo source, acting on the stack value
it received: it drains that value and returns the printed elements, top
first. -/
def AStack.displayLoop (s : AStack T) : List T :=
  drainAux (AStack.size s) s

/-- A call to `display` from the source `main`: the C++ parameter is passed by
value, so the callee drains its own copy of the stack; the result pairs the
printed output with the stack the caller still holds after the call. -/
def AStack.displayCall (s : AStack T) : List T × AStack T :=
  (AStack.displayLoop s, s)

theorem append_at_end_eq (b : Backing) (xs : List T) (x : T) :
    append_at_end b xs x = xs ++ [x] := by
  cases b <;> rfl

theorem remove_at_end_eq (b : Backing) (xs : List T) :
    remove_at_end b xs = xs.dropLast := by
  cases b <;> rfl

theorem peek_at_end_eq (b : Backing) (xs : List T) :
    peek_at_end b xs = xs.getLast? := by
  cases b <;> rfl

theorem count_eq (b : Backing) (xs : List T) :
    count b xs = xs.length := by
  cases b <;> rfl

theorem is_empty_eq (b : Backing) (xs : List T) :
    is_empty b xs = xs.isEmpty := by
  cases b <;> rfl

theorem pushAll_elems (s : AStack T) (vs : List T) :
    AStack.pushAll s vs = { s with elems := s.elems ++ vs } := by
  induction vs generalizing s with
  | nil => simp [AStack.pushAll]
  | cons v vs ih =>
      cases s with
      | mk b xs =>
          have h1 : AStack.pushAll ⟨b, xs⟩ (v :: vs)
              = AStack.pushAll ⟨b, xs ++ [v]⟩ vs := by
            simp [AStack.pushAll, AStack.push, append_at_end_eq]
          rw [h1, ih]
          simp

theorem pop_concat (b : Backing) (xs : List T) (v : T) :
    AStack.pop ⟨b, xs ++ [v]⟩ = (Except.ok v, ⟨b, xs⟩) := by
  simp [AStack.pop, is_empty_eq, peek_at_end_eq, remove_at_end_eq,
    List.getLast?_concat, List.dropLast_concat]

theorem popN_concat (vs : List T) (b : Backing) (ys : List T) :
    AStack.popN ⟨b, ys ++ vs⟩ vs.length = (vs.reverse, ⟨b, ys⟩) := by
  induction vs using List.reverseRecOn generalizing ys with
  | nil => simp [AStack.popN]
  | append_singleton ws w ih =>
      have hlen : (ws ++ [w]).length = ws.length + 1 := by simp
      rw [hlen]
      have hassoc : ys ++ (ws ++ [w]) = (ys ++ ws) ++ [w] := by simp
      rw [hassoc]
      simp only [AStack.popN, pop_concat, ih]
      simp

theorem drainAux_eq_reverse (n : Nat) (s : AStack T) (h : s.elems.length ≤ n) :
    drainAux n s = s.elems.reverse := by
  induction n generalizing s with
  | zero =>
      have hnil : s.elems = [] := List.length_eq_zero.mp (Nat.le_zero.mp h)
      simp [drainAux, hnil]
  | succ n ih =>
      cases s with
      | mk b xs =>
          rcases List.eq_nil_or_concat xs with hnil | ⟨ys, w, hys⟩
          · subst hnil
            simp [drainAux, AStack.pop, is_empty_eq]
          · subst hys
            have hlen : ys.length ≤ n := by
              have h2 := h
              simp at h2
              omega
            have hstep : drainAux (n + 1) (⟨b, ys ++ [w]⟩ : AStack T)
                = w :: drainAux n ⟨b, ys⟩ := by
              simp only [drainAux, pop_concat]
            simp only [List.concat_eq_append]
            rw [hstep, ih ⟨b, ys⟩ hlen]
            simp

/-- Claim C1: for every supported Backing and every sequence of pushes of `vs`
followed by `vs.length` pops, the popped values are exactly the reverse of the
push order and the stack returns to its initial state; in particular pushing
1,2,3,4,5 and popping four times yields 5,4,3,2, after which `size` is 1 and
`peek` returns 1. -/
theorem stack_lifo_law {T : Type} (s : AStack T) (vs : List T) :
    AStack.popN (AStack.pushAll s vs) vs.length = (vs.reverse, s) ∧
    (∀ b : Backing,
      (AStack.popN (AStack.pushAll (AStack.mkEmpty b) ([1, 2, 3, 4, 5] : List ℤ)) 4).1
          = [5, 4, 3, 2] ∧
      ((AStack.popN (AStack.pushAll (AStack.mkEmpty b) ([1, 2, 3, 4, 5] : List ℤ)) 4).2).size
          = 1 ∧
      (AStack.peek ((AStack.popN (AStack.pushAll (AStack.mkEmpty b) ([1, 2, 3, 4, 5] : List ℤ)) 4).2)).1
          = Except.ok (1 : ℤ)) := by
  constructor
  · cases s with
    | mk b xs =>
        rw [pushAll_elems]
        exact popN_concat vs b xs
  · intro b
    cases b <;> exact ⟨rfl, rfl, rfl⟩

/-- Claim C4: `pop` on an empty Adapter Stack fails with `EmptyStackError` and
returns the stack unchanged, in particular still empty. -/
theorem pop_on_empty_fails {T : Type} (s : AStack T) (h : s.is_empty = true) :
    AStack.pop s = (Except.error EmptyStackError.emptyStack, s) ∧
    (AStack.pop s).2.is_empty = true := by
  have h1 : StackAdapter.is_empty s.backing s.elems = true := h
  have h2 : AStack.pop s = (Except.error EmptyStackError.emptyStack, s) := by
    simp [AStack.pop, h1]
  exact ⟨h2, by rw [h2]; exact h⟩

theorem pop_on_empty_fails_witness :
    (AStack.mkEmpty Backing.deque : AStack ℤ).is_empty = true ∧
    AStack.pop (AStack.mkEmpty Backing.deque : AStack ℤ)
      = (Except.error EmptyStackError.emptyStack, AStack.mkEmpty Backing.deque) :=
  ⟨rfl, (pop_on_empty_fails (AStack.mkEmpty Backing.deque) rfl).1⟩

/-- Claim C5: `peek` never changes the stack — the post-state equals the pre-state,
in particular `size` is unchanged — `peek` on an empty stack fails with
`EmptyStackError`, and after a `push` of `v` the `peek` result is `v` (the top
element is read without being removed). -/
theorem peek_is_readonly {T : Type} (s : AStack T) (v : T) :
    (AStack.peek s).2 = s ∧
    ((AStack.peek s).2).size = s.size ∧
    (s.is_empty = true →
      (AStack.peek s).1 = Except.error EmptyStackError.emptyStack) ∧
    (AStack.peek (AStack.push s v)).1 = Except.ok v := by
  have hsnd : (AStack.peek s).2 = s := by
    unfold AStack.peek
    split
    · rfl
    · split <;> rfl
  refine ⟨hsnd, by rw [hsnd], ?_, ?_⟩
  · intro h
    have h1 : StackAdapter.is_empty s.backing s.elems = true := h
    simp [AStack.peek, h1]
  · cases s with
    | mk b xs =>
        simp [AStack.push, AStack.peek, append_at_end_eq, is_empty_eq,
          peek_at_end_eq, List.getLast?_concat]

theorem peek_is_readonly_witness :
    (AStack.peek (AStack.mkEmpty Backing.deque : AStack ℤ)).1
        = Except.error EmptyStackError.emptyStack ∧
    (AStack.peek (AStack.push (AStack.mkEmpty Backing.deque : AStack ℤ) 7)).1
        = Except.ok (7 : ℤ) :=
  ⟨(peek_is_readonly (AStack.mkEmpty Backing.deque) (7 : ℤ)).2.2.1 rfl,
   (peek_is_readonly (AStack.mkEmpty Backing.deque) (7 : ℤ)).2.2.2⟩

/-- Claim C6: `display` receives the stack by value and drains the copy, so a call
leaves the caller with exactly the stack it had before — same elements, same
order — while the printed output lists every element, top first. -/
theorem display_is_readonly_for_caller {T : Type} (s : AStack T) :
    AStack.displayCall s = (s.elems.reverse, s) := by
  unfold AStack.displayCall AStack.displayLoop
  rw [drainAux_eq_reverse (AStack.size s) s (by rw [AStack.size, count_eq])]

end StackAdapter

namespace GenericList

/-- A pointer value in the heap model of the generic list demo.  `new` in the
source default-initializes `ListItem`, whose raw-pointer members are then
indeterminate; `uninit` records such an indeterminate pointer, distinct from
the null pointer `NULL`. -/
inductive PtrVal
  | uninit
  | null
  | addr (a : Nat)
deriving DecidableEq, Repr

/-- The node type `ListItem<T>` of the source: two raw pointers and the
payload. -/
structure ListItem (T : Type) where
  next : PtrVal
  prev : PtrVal
  data : T
deriving DecidableEq, Repr

/-- The `List<T>` object of the source together with the heap of nodes it has
allocated; address `a` is position `a` in `heap`.  Named `LList` because
`List` is taken by the Lean core type. -/
structure LList (T : Type) where
  heap : List (ListItem T)
  head : PtrVal
  tail : PtrVal
deriving DecidableEq, Repr

variable {T : Type}

/-- The `List<T>` constructor: `head = NULL; tail = NULL;`, no nodes
allocated yet. -/
def LList.init : LList T :=
  { heap := [], head := PtrVal.null, tail := PtrVal.null }

/-- The heap store `p->next = q` used by `tail->next = item` in `push`; a
store through a pointer that is not a live address leaves the heap unchanged
(such a store is never reached from states built by `push`). -/
def writeNext (h : List (ListItem T)) (p q : PtrVal) : List (ListItem T) :=
  match p with
  | PtrVal.addr a =>
      match h[a]? with
      | some it => h.set a { it with next := q }
      | none => h
  | _ => h

/-- The function `List::push` from the source: allocate a node with indeterminate `next`
and `prev`, store the value, then either make it the head (empty case) or set
`item->prev = tail; tail->next = item`; finally `tail = item`.  Note that the
source never writes `next` of the newly allocated node and never writes
`prev` of the first node. -/
def LList.push (s : LList T) (v : T) : LList T :=
  let a := s.heap.length
  let item : ListItem T := { next := PtrVal.uninit, prev := PtrVal.uninit, data := v }
  if s.head = PtrVal.null then
    { heap := s.heap ++ [item], head := PtrVal.addr a, tail := PtrVal.addr a }
  else
    { heap := writeNext s.heap s.tail (PtrVal.addr a) ++ [{ item with prev := s.tail }],
      head := s.head,
      tail := PtrVal.addr a }

/-- A sequence of pushes, as in `main` of the source. -/
def LList.pushAll (s : LList T) (vs : List T) : LList T :=
  vs.foldl LList.push s

/-- The loop of `List::display`: `current = head; while (current != NULL)
\x7b print current->data; current = current->next; \x7d`.  Following the null
pointer ends the traversal with the list of visited values; reaching an
indeterminate pointer means the loop condition reads an uninitialized value,
which has no defined result — modelled as `none` (as is running out of
fuel). -/
def displayAux (h : List (ListItem T)) : PtrVal → Nat → Option (List T)
  | PtrVal.null, _ => some []
  | PtrVal.uninit, _ => none
  | PtrVal.addr _, 0 => none
  | PtrVal.addr a, n + 1 =>
      match h[a]? with
      | some it =>
          match displayAux h it.next n with
          | some rest => some (it.data :: rest)
          | none => none
      | none => none

/-- The function `List::display` from the source, with a fuel bound on the loop. -/
def LList.display (s : LList T) (fuel : Nat) : Option (List T) :=
  displayAux s.heap s.head fuel

/-- One forward step `current = current->next` through a live pointer. -/
def stepF (h : List (ListItem T)) (p : PtrVal) : Option PtrVal :=
  match p with
  | PtrVal.addr a => (h[a]?).map ListItem.next
  | _ => none

/-- One backward step `current = current->prev` through a live pointer. -/
def stepB (h : List (ListItem T)) (p : PtrVal) : Option PtrVal :=
  match p with
  | PtrVal.addr a => (h[a]?).map ListItem.prev
  | _ => none

/-- Follow `k` successor links from `p`; `none` if a non-address pointer is
dereferenced on the way. -/
def walkF (h : List (ListItem T)) : PtrVal → Nat → Option PtrVal
  | p, 0 => some p
  | p, k + 1 =>
      match stepF h p with
      | some q => walkF h q k
      | none => none

/-- Follow `k` back links from `p`; `none` if a non-address pointer is
dereferenced on the way. -/
def walkB (h : List (ListItem T)) : PtrVal → Nat → Option PtrVal
  | p, 0 => some p
  | p, k + 1 =>
      match stepB h p with
      | some q => walkB h q k
      | none => none

/-- Heap addresses allocated by the pushes performed so far (one `new` per
push). -/
def LList.allocatedAddrs (s : LList T) : List Nat :=
  List.range s.heap.length

/-- The heap addresses deleted when the `List` object is destroyed.  The
source class declares no destructor, so the implicitly-defined destructor
only destroys the two raw-pointer members `head` and `tail` and deletes no
node: the list of deleted addresses is empty, whatever the state. -/
def LList.destructorDeletes (s : LList T) : List Nat :=
  []

/-- The link value `push` leaves in the `next` field of node `i` of a chain of
`n` nodes: the address of the next node, except for the last node, whose
`next` is never written and stays indeterminate. -/
def nextOf (n i : Nat) : PtrVal :=
  if i + 1 < n then PtrVal.addr (i + 1) else PtrVal.uninit

/-- The link value `push` leaves in the `prev` field of node `i`: the address
of the previous node, except for the first node, whose `prev` is never
written and stays indeterminate. -/
def prevOf (i : Nat) : PtrVal :=
  if i = 0 then PtrVal.uninit else PtrVal.addr (i - 1)

/-- Shape invariant of every list state reachable by pushes: either the empty
state, or head at address 0, tail at the last allocated address, and every
node carrying exactly the links `push` gave it. -/
def chainShape (s : LList T) : Prop :=
  (s.heap = [] ∧ s.head = PtrVal.null ∧ s.tail = PtrVal.null) ∨
  (s.heap ≠ [] ∧ s.head = PtrVal.addr 0 ∧ s.tail = PtrVal.addr (s.heap.length - 1) ∧
    ∀ i it, s.heap[i]? = some it → it.next = nextOf s.heap.length i ∧ it.prev = prevOf i)

theorem writeNext_length (h : List (ListItem T)) (p q : PtrVal) :
    (writeNext h p q).length = h.length := by
  rcases p with _ | _ | a
  · rfl
  · rfl
  · have hre : writeNext h (PtrVal.addr a) q
        = match h[a]? with
          | some it => h.set a { it with next := q }
          | none => h := rfl
    rw [hre]
    cases hget : h[a]?
    · rfl
    · simp

theorem push_heap_length (s : LList T) (v : T) :
    (LList.push s v).heap.length = s.heap.length + 1 := by
  obtain ⟨h, hd, tl⟩ := s
  rcases hd with _ | _ | a
  · have hre : LList.push (⟨h, PtrVal.uninit, tl⟩ : LList T) v
        = ⟨writeNext h tl (PtrVal.addr h.length)
              ++ [({ next := PtrVal.uninit, prev := tl, data := v } : ListItem T)],
            PtrVal.uninit, PtrVal.addr h.length⟩ := rfl
    rw [hre]
    simp [writeNext_length]
  · have hre : LList.push (⟨h, PtrVal.null, tl⟩ : LList T) v
        = ⟨h ++ [({ next := PtrVal.uninit, prev := PtrVal.uninit, data := v } : ListItem T)],
            PtrVal.addr h.length, PtrVal.addr h.length⟩ := rfl
    rw [hre]
    simp
  · have hre : LList.push (⟨h, PtrVal.addr a, tl⟩ : LList T) v
        = ⟨writeNext h tl (PtrVal.addr h.length)
              ++ [({ next := PtrVal.uninit, prev := tl, data := v } : ListItem T)],
            PtrVal.addr a, PtrVal.addr h.length⟩ := rfl
    rw [hre]
    simp [writeNext_length]

theorem pushAll_heap_length (s : LList T) (vs : List T) :
    (LList.pushAll s vs).heap.length = s.heap.length + vs.length := by
  induction vs generalizing s with
  | nil => simp [LList.pushAll]
  | cons v vs ih =>
      have h1 : LList.pushAll s (v :: vs) = LList.pushAll (LList.push s v) vs := rfl
      rw [h1, ih (LList.push s v), push_heap_length]
      simp only [List.length_cons]
      omega

theorem chainShape_empty : chainShape (LList.init : LList T) :=
  Or.inl ⟨rfl, rfl, rfl⟩

theorem chainShape_push (s : LList T) (v : T) (hs : chainShape s) :
    chainShape (LList.push s v) := by
  obtain ⟨h, hd, tl⟩ := s
  rcases hs with ⟨hheap, hhead, htail⟩ | ⟨hne, hhead, htail, hnodes⟩
  · -- empty list: push takes the head = NULL branch
    have hheap2 : h = [] := hheap
    have hhead2 : hd = PtrVal.null := hhead
    have htail2 : tl = PtrVal.null := htail
    subst hheap2 hhead2 htail2
    have hpush : LList.push (⟨[], PtrVal.null, PtrVal.null⟩ : LList T) v
        = ⟨[({ next := PtrVal.uninit, prev := PtrVal.uninit, data := v } : ListItem T)],
            PtrVal.addr 0, PtrVal.addr 0⟩ := rfl
    rw [hpush]
    have f3 : ∀ i it,
        ([({ next := PtrVal.uninit, prev := PtrVal.uninit, data := v } : ListItem T)])[i]?
          = some it →
        it.next = nextOf 1 i ∧ it.prev = prevOf i := by
      intro i it hit
      cases i with
      | zero =>
          simp at hit
          subst hit
          simp [nextOf, prevOf]
      | succ j =>
          simp at hit
    exact Or.inr ⟨by simp, rfl, by simp, f3⟩
  · -- nonempty list: push takes the tail-link branch
    have hne2 : h ≠ [] := hne
    have hhead2 : hd = PtrVal.addr 0 := hhead
    have htail2 : tl = PtrVal.addr (h.length - 1) := htail
    have hnodes2 : ∀ i it, h[i]? = some it →
        it.next = nextOf h.length i ∧ it.prev = prevOf i := hnodes
    subst hhead2 htail2
    have hnpos : 0 < h.length := List.length_pos.mpr hne2
    have hlt : h.length - 1 < h.length := by omega
    obtain ⟨it0, hit0⟩ : ∃ it0, h[h.length - 1]? = some it0 :=
      ⟨_, List.getElem?_eq_getElem hlt⟩
    have hwrite : writeNext h (PtrVal.addr (h.length - 1)) (PtrVal.addr h.length)
        = h.set (h.length - 1) { it0 with next := PtrVal.addr h.length } := by
      have hre : writeNext h (PtrVal.addr (h.length - 1)) (PtrVal.addr h.length)
          = match h[h.length - 1]? with
            | some it => h.set (h.length - 1) { it with next := PtrVal.addr h.length }
            | none => h := rfl
      rw [hre, hit0]
    have hpush : LList.push (⟨h, PtrVal.addr 0, PtrVal.addr (h.length - 1)⟩ : LList T) v
        = ⟨writeNext h (PtrVal.addr (h.length - 1)) (PtrVal.addr h.length)
              ++ [({ next := PtrVal.uninit, prev := PtrVal.addr (h.length - 1), data := v }
                    : ListItem T)],
            PtrVal.addr 0, PtrVal.addr h.length⟩ := rfl
    rw [hpush, hwrite]
    have hlen2 : (h.set (h.length - 1) { it0 with next := PtrVal.addr h.length }
          ++ [({ next := PtrVal.uninit, prev := PtrVal.addr (h.length - 1), data := v }
                : ListItem T)]).length
        = h.length + 1 := by
      simp
    have f1 : h.set (h.length - 1) { it0 with next := PtrVal.addr h.length }
          ++ [({ next := PtrVal.uninit, prev := PtrVal.addr (h.length - 1), data := v }
                : ListItem T)] ≠ [] := by
      intro hco
      have hco2 := congrArg List.length hco
      rw [hlen2] at hco2
      simp at hco2
    have f2 : PtrVal.addr h.length
        = PtrVal.addr ((h.set (h.length - 1) { it0 with next := PtrVal.addr h.length }
              ++ [({ next := PtrVal.uninit, prev := PtrVal.addr (h.length - 1), data := v }
                    : ListItem T)]).length - 1) := by
      rw [hlen2]
      simp
    have f3 : ∀ i it,
        (h.set (h.length - 1) { it0 with next := PtrVal.addr h.length }
            ++ [({ next := PtrVal.uninit, prev := PtrVal.addr (h.length - 1), data := v }
                  : ListItem T)])[i]? = some it →
        it.next = nextOf (h.set (h.length - 1) { it0 with next := PtrVal.addr h.length }
            ++ [({ next := PtrVal.uninit, prev := PtrVal.addr (h.length - 1), data := v }
                  : ListItem T)]).length i ∧
        it.prev = prevOf i := by
      rw [hlen2]
      intro i it hit
      by_cases hi : i < h.length
      · rw [List.getElem?_append_left (by simpa using hi)] at hit
        by_cases hieq : i = h.length - 1
        · subst hieq
          rw [List.getElem?_set_self', hit0] at hit
          simp at hit
          subst hit
          have hold := hnodes2 (h.length - 1) it0 hit0
          refine ⟨?_, ?_⟩
          · show PtrVal.addr h.length = nextOf (h.length + 1) (h.length - 1)
            unfold nextOf
            rw [if_pos (by omega)]
            have he : h.length - 1 + 1 = h.length := by omega
            rw [he]
          · show it0.prev = prevOf (h.length - 1)
            exact hold.2
        · rw [List.getElem?_set_ne (fun hco => hieq hco.symm)] at hit
          have hold := hnodes2 i it hit
          refine ⟨?_, hold.2⟩
          rw [hold.1]
          unfold nextOf
          rw [if_pos (by omega), if_pos (by omega)]
      · rw [List.getElem?_append_right (by simpa using hi)] at hit
        by_cases hieq : i = h.length
        · subst hieq
          simp only [List.length_set, Nat.sub_self, List.getElem?_cons_zero,
            Option.some.injEq] at hit
          subst hit
          refine ⟨?_, ?_⟩
          · show PtrVal.uninit = nextOf (h.length + 1) h.length
            unfold nextOf
            rw [if_neg (by omega)]
          · show PtrVal.addr (h.length - 1) = prevOf h.length
            unfold prevOf
            rw [if_neg (by omega)]
        · exfalso
          have hgt : h.length < i := by omega
          rw [List.getElem?_eq_none (by simp; omega)] at hit
          cases hit
    exact Or.inr ⟨f1, rfl, f2, f3⟩

theorem chainShape_pushAll (s : LList T) (vs : List T) (hs : chainShape s) :
    chainShape (LList.pushAll s vs) := by
  induction vs generalizing s with
  | nil => exact hs
  | cons v vs ih =>
      have h1 : LList.pushAll s (v :: vs) = LList.pushAll (LList.push s v) vs := rfl
      rw [h1]
      exact ih _ (chainShape_push s v hs)

theorem walkF_addr (h : List (ListItem T))
    (hnodes : ∀ i it, h[i]? = some it → it.next = nextOf h.length i ∧ it.prev = prevOf i)
    (k i : Nat) (hik : i + k ≤ h.length - 1) :
    walkF h (PtrVal.addr i) k = some (PtrVal.addr (i + k)) := by
  induction k generalizing i with
  | zero => rfl
  | succ k ih =>
      have hi : i < h.length := by omega
      obtain ⟨it, hit⟩ : ∃ it, h[i]? = some it := ⟨_, List.getElem?_eq_getElem hi⟩
      have hnext : it.next = PtrVal.addr (i + 1) := by
        rw [(hnodes i it hit).1]
        unfold nextOf
        rw [if_pos (by omega)]
      have hstep : stepF h (PtrVal.addr i) = some (PtrVal.addr (i + 1)) := by
        have hre : stepF h (PtrVal.addr i) = (h[i]?).map ListItem.next := rfl
        rw [hre, hit]
        simp [hnext]
      have hre2 : walkF h (PtrVal.addr i) (k + 1)
          = match stepF h (PtrVal.addr i) with
            | some q => walkF h q k
            | none => none := rfl
      rw [hre2, hstep]
      have he : i + (k + 1) = (i + 1) + k := by omega
      rw [he]
      exact ih (i + 1) (by omega)

theorem walkB_addr (h : List (ListItem T))
    (hnodes : ∀ i it, h[i]? = some it → it.next = nextOf h.length i ∧ it.prev = prevOf i)
    (k i : Nat) (hk : k ≤ i) (hi : i < h.length) :
    walkB h (PtrVal.addr i) k = some (PtrVal.addr (i - k)) := by
  induction k generalizing i with
  | zero => rfl
  | succ k ih =>
      obtain ⟨it, hit⟩ : ∃ it, h[i]? = some it := ⟨_, List.getElem?_eq_getElem hi⟩
      have hprev : it.prev = PtrVal.addr (i - 1) := by
        rw [(hnodes i it hit).2]
        unfold prevOf
        rw [if_neg (by omega)]
      have hstep : stepB h (PtrVal.addr i) = some (PtrVal.addr (i - 1)) := by
        have hre : stepB h (PtrVal.addr i) = (h[i]?).map ListItem.prev := rfl
        rw [hre, hit]
        simp [hprev]
      have hre2 : walkB h (PtrVal.addr i) (k + 1)
          = match stepB h (PtrVal.addr i) with
            | some q => walkB h q k
            | none => none := rfl
      rw [hre2, hstep]
      have he : i - (k + 1) = (i - 1) - k := by omega
      rw [he]
      exact ih (i - 1) (by omega) (by omega)

theorem displayAux_none (h : List (ListItem T))
    (hnodes : ∀ i it, h[i]? = some it → it.next = nextOf h.length i ∧ it.prev = prevOf i)
    (fuel : Nat) :
    ∀ i, i < h.length → displayAux h (PtrVal.addr i) fuel = none := by
  induction fuel with
  | zero =>
      intro i hi
      rfl
  | succ fuel ih =>
      intro i hi
      obtain ⟨it, hit⟩ : ∃ it, h[i]? = some it := ⟨_, List.getElem?_eq_getElem hi⟩
      have hre : displayAux h (PtrVal.addr i) (fuel + 1)
          = match h[i]? with
            | some it =>
                match displayAux h it.next fuel with
                | some rest => some (it.data :: rest)
                | none => none
            | none => none := rfl
      rw [hre, hit]
      show (match displayAux h it.next fuel with
            | some rest => some (it.data :: rest)
            | none => none) = none
      by_cases hc : i + 1 < h.length
      · have hnext : it.next = PtrVal.addr (i + 1) := by
          rw [(hnodes i it hit).1]
          unfold nextOf
          rw [if_pos hc]
        rw [hnext, ih (i + 1) hc]
      · have hnext : it.next = PtrVal.uninit := by
          rw [(hnodes i it hit).1]
          unfold nextOf
          rw [if_neg hc]
        have huninit : displayAux h PtrVal.uninit fuel = none := by
          cases fuel <;> rfl
        rw [hnext, huninit]

theorem pushAll_shape {T : Type} (vs : List T) (hne : vs ≠ []) :
    (LList.pushAll (LList.init : LList T) vs).head = PtrVal.addr 0 ∧
    (LList.pushAll (LList.init : LList T) vs).tail = PtrVal.addr (vs.length - 1) ∧
    (LList.pushAll (LList.init : LList T) vs).heap.length = vs.length ∧
    (∀ i it, (LList.pushAll (LList.init : LList T) vs).heap[i]? = some it →
      it.next = nextOf vs.length i ∧ it.prev = prevOf i) := by
  have hlen : (LList.pushAll (LList.init : LList T) vs).heap.length = vs.length := by
    rw [pushAll_heap_length]
    simp [LList.init]
  rcases chainShape_pushAll LList.init vs chainShape_empty with
    ⟨hnil, _, _⟩ | ⟨_, hhead, htail, hnodes⟩
  · exfalso
    apply hne
    apply List.length_eq_zero.mp
    rw [← hlen, hnil]
    rfl
  · rw [hlen] at htail hnodes
    exact ⟨hhead, htail, hlen, hnodes⟩

theorem display_pushAll_none {T : Type} (vs : List T) (hne : vs ≠ []) (fuel : Nat) :
    LList.display (LList.pushAll LList.init vs) fuel = none := by
  obtain ⟨hhead, htail, hlen, hnodes⟩ := pushAll_shape vs hne
  have hnodes2 : ∀ i it, (LList.pushAll (LList.init : LList T) vs).heap[i]? = some it →
      it.next = nextOf (LList.pushAll (LList.init : LList T) vs).heap.length i ∧
      it.prev = prevOf i := by
    rw [hlen]
    exact hnodes
  have hnpos : 0 < (LList.pushAll (LList.init : LList T) vs).heap.length := by
    rw [hlen]
    exact List.length_pos.mpr hne
  have hre : LList.display (LList.pushAll LList.init vs) fuel
      = displayAux (LList.pushAll LList.init vs).heap
          (LList.pushAll LList.init vs).head fuel := rfl
  rw [hre, hhead]
  exact displayAux_none _ hnodes2 fuel 0 hnpos

/-- Claim C3: invariants of every list reachable by pushes from the empty list.
If no value was pushed, both head and tail are NULL.  Otherwise the walk
along successor links starting at head reaches tail after exactly
`size - 1` link-follows — tail is the `size`-th node visited, so the walk
from head consumes exactly `size` nodes — and at no earlier point, and the
walk along back links from tail reaches head in exactly the same count, and
at no earlier point. -/
theorem list_head_tail_walk_invariant {T : Type} (vs : List T) :
    (vs = [] →
      (LList.pushAll (LList.init : LList T) vs).head = PtrVal.null ∧
      (LList.pushAll (LList.init : LList T) vs).tail = PtrVal.null) ∧
    (vs ≠ [] →
      walkF (LList.pushAll (LList.init : LList T) vs).heap
          (LList.pushAll (LList.init : LList T) vs).head (vs.length - 1)
        = some (LList.pushAll (LList.init : LList T) vs).tail ∧
      (∀ k, k < vs.length - 1 →
        walkF (LList.pushAll (LList.init : LList T) vs).heap
            (LList.pushAll (LList.init : LList T) vs).head k
          ≠ some (LList.pushAll (LList.init : LList T) vs).tail) ∧
      walkB (LList.pushAll (LList.init : LList T) vs).heap
          (LList.pushAll (LList.init : LList T) vs).tail (vs.length - 1)
        = some (LList.pushAll (LList.init : LList T) vs).head ∧
      (∀ k, k < vs.length - 1 →
        walkB (LList.pushAll (LList.init : LList T) vs).heap
            (LList.pushAll (LList.init : LList T) vs).tail k
          ≠ some (LList.pushAll (LList.init : LList T) vs).head)) := by
  constructor
  · intro hnil
    subst hnil
    exact ⟨rfl, rfl⟩
  · intro hne
    obtain ⟨hhead, htail, hlen, hnodes⟩ := pushAll_shape vs hne
    have hnodes2 : ∀ i it, (LList.pushAll (LList.init : LList T) vs).heap[i]? = some it →
        it.next = nextOf (LList.pushAll (LList.init : LList T) vs).heap.length i ∧
        it.prev = prevOf i := by
      rw [hlen]
      exact hnodes
    have hnpos : 0 < vs.length := List.length_pos.mpr hne
    refine ⟨?_, ?_, ?_, ?_⟩
    · rw [hhead, htail]
      have hw := walkF_addr (LList.pushAll (LList.init : LList T) vs).heap hnodes2
        (vs.length - 1) 0 (by rw [hlen]; omega)
      simpa using hw
    · intro k hk
      rw [hhead, htail]
      intro heq
      have hw := walkF_addr (LList.pushAll (LList.init : LList T) vs).heap hnodes2
        k 0 (by rw [hlen]; omega)
      rw [hw] at heq
      simp at heq
      omega
    · rw [hhead, htail]
      have hw := walkB_addr (LList.pushAll (LList.init : LList T) vs).heap hnodes2
        (vs.length - 1) (vs.length - 1) (Nat.le_refl _) (by rw [hlen]; omega)
      have he : vs.length - 1 - (vs.length - 1) = 0 := by omega
      rw [he] at hw
      exact hw
    · intro k hk
      rw [hhead, htail]
      intro heq
      have hw := walkB_addr (LList.pushAll (LList.init : LList T) vs).heap hnodes2
        k (vs.length - 1) (by omega) (by rw [hlen]; omega)
      rw [hw] at heq
      simp at heq
      omega

theorem list_head_tail_walk_invariant_witness :
    (LList.pushAll (LList.init : LList ℤ) []).head = PtrVal.null ∧
    walkF (LList.pushAll (LList.init : LList ℤ) [1, 2, 3]).heap
        (LList.pushAll (LList.init : LList ℤ) [1, 2, 3]).head 2
      = some (LList.pushAll (LList.init : LList ℤ) [1, 2, 3]).tail ∧
    walkF (LList.pushAll (LList.init : LList ℤ) [1, 2, 3]).heap
        (LList.pushAll (LList.init : LList ℤ) [1, 2, 3]).head 1
      ≠ some (LList.pushAll (LList.init : LList ℤ) [1, 2, 3]).tail ∧
    walkB (LList.pushAll (LList.init : LList ℤ) [1, 2, 3]).heap
        (LList.pushAll (LList.init : LList ℤ) [1, 2, 3]).tail 2
      = some (LList.pushAll (LList.init : LList ℤ) [1, 2, 3]).head :=
  ⟨((list_head_tail_walk_invariant ([] : List ℤ)).1 rfl).1,
   ((list_head_tail_walk_invariant ([1, 2, 3] : List ℤ)).2 (by decide)).1,
   ((list_head_tail_walk_invariant ([1, 2, 3] : List ℤ)).2 (by decide)).2.1 1 (by decide),
   ((list_head_tail_walk_invariant ([1, 2, 3] : List ℤ)).2 (by decide)).2.2.1⟩

/-- Claim C9: for every nonempty sequence of pushes, the node the tail points to
still has an uninitialized `next` link and the node the head points to still
has an uninitialized `prev` link — `push` only ever writes the new node
`prev` and the old tail `next`, never a null terminator — and therefore the
display loop, after passing the last node, reads an indeterminate pointer
rather than `NULL`: for every fuel the traversal yields no defined result. -/
theorem push_leaves_tail_next_uninitialized {T : Type} (vs : List T) (hne : vs ≠ []) :
    (LList.pushAll (LList.init : LList T) vs).tail = PtrVal.addr (vs.length - 1) ∧
    (LList.pushAll (LList.init : LList T) vs).head = PtrVal.addr 0 ∧
    (∀ it, (LList.pushAll (LList.init : LList T) vs).heap[vs.length - 1]? = some it →
      it.next = PtrVal.uninit) ∧
    (∀ it, (LList.pushAll (LList.init : LList T) vs).heap[0]? = some it →
      it.prev = PtrVal.uninit) ∧
    (∀ fuel, LList.display (LList.pushAll (LList.init : LList T) vs) fuel = none) := by
  obtain ⟨hhead, htail, hlen, hnodes⟩ := pushAll_shape vs hne
  have hnpos : 0 < vs.length := List.length_pos.mpr hne
  refine ⟨htail, hhead, ?_, ?_, ?_⟩
  · intro it hit
    rw [(hnodes (vs.length - 1) it hit).1]
    unfold nextOf
    rw [if_neg (by omega)]
  · intro it hit
    rw [(hnodes 0 it hit).2]
    unfold prevOf
    rw [if_pos rfl]
  · intro fuel
    exact display_pushAll_none vs hne fuel

theorem push_leaves_tail_next_uninitialized_witness :
    (LList.pushAll (LList.init : LList ℤ) [1, 2, 3]).tail = PtrVal.addr 2 ∧
    LList.display (LList.pushAll (LList.init : LList ℤ) [1, 2, 3]) 10 = none :=
  ⟨(push_leaves_tail_next_uninitialized ([1, 2, 3] : List ℤ) (by decide)).1,
   (push_leaves_tail_next_uninitialized ([1, 2, 3] : List ℤ) (by decide)).2.2.2.2 10⟩

/-- Claim C2 (code bug): the source `main` pushes "Ave", "Emperor",
"Marcus Aurelius!" and calls `display`.  The loop condition
`current != NULL` relies on a null terminator that `push` never writes: after
the third node the loop reads the uninitialized `next` pointer, so the
traversal has no defined result — `none` for this input at any fuel — rather
than visiting a, b, c and terminating. -/
theorem display_after_three_pushes_undefined :
    LList.display
        (LList.pushAll LList.init ["Ave", "Emperor", "Marcus Aurelius!"]) 10 = none ∧
    (∀ fuel, LList.display
        (LList.pushAll LList.init ["Ave", "Emperor", "Marcus Aurelius!"]) fuel = none) :=
  ⟨display_pushAll_none ["Ave", "Emperor", "Marcus Aurelius!"] (by simp) 10,
   fun fuel => display_pushAll_none ["Ave", "Emperor", "Marcus Aurelius!"] (by simp) fuel⟩

/-- Claim C8 (code bug): after the three pushes of the source `main`, three nodes
have been allocated, but the `List` class declares no destructor, so
destroying the list object deletes no node: teardown does not release the
chain. -/
theorem destructor_deletes_no_node :
    (LList.pushAll LList.init ["Ave", "Emperor", "Marcus Aurelius!"]).allocatedAddrs
        = [0, 1, 2] ∧
    LList.destructorDeletes
        (LList.pushAll LList.init ["Ave", "Emperor", "Marcus Aurelius!"]) = [] :=
  ⟨rfl, rfl⟩

end GenericList

namespace WeakPointers

/-- The two heap objects of the weak-pointer demo. -/
inductive Obj
  | A
  | B
deriving DecidableEq, Repr

/-- Reference-count state of the weak-pointer demo: one A object and one B
object, their strong counts (weak references never count), whether the member
`A.b_ptr` (a strong reference to B) and the member `B.a_ptr` (a weak
reference to A) are engaged, and the log of destructor runs. -/
structure WPState where
  aAlive : Bool
  bAlive : Bool
  aStrong : Nat
  bStrong : Nat
  aMemberB : Bool
  bMemberA : Bool
  dtorLog : List Obj
deriving DecidableEq, Repr

/-- Running `~B()`: the destructor body executes (logged), then the member
weak reference `a_ptr` is destroyed, which changes no strong count. -/
def destroyB (s : WPState) : WPState :=
  { s with bAlive := false, bMemberA := false, dtorLog := s.dtorLog ++ [Obj.B] }

/-- Destroying one strong reference to the B object: the count drops by one
and the object is destroyed exactly when the count reaches zero. -/
def dropStrongB (s : WPState) : WPState :=
  let s1 := { s with bStrong := s.bStrong - 1 }
  if s1.bStrong = 0 then destroyB s1 else s1

/-- Running `~A()`: the destructor body executes (logged), then the member
strong reference `b_ptr` is destroyed, dropping the strong count of B. -/
def destroyA (s : WPState) : WPState :=
  let s1 := { s with aAlive := false, dtorLog := s.dtorLog ++ [Obj.A] }
  if s1.aMemberB then dropStrongB { s1 with aMemberB := false } else s1

/-- Destroying one strong reference to the A object. -/
def dropStrongA (s : WPState) : WPState :=
  let s1 := { s with aStrong := s.aStrong - 1 }
  if s1.aStrong = 0 then destroyA s1 else s1

/-- Modelled from the spec: `resolve` applied to the weak reference held by B
toward A (`std::weak_ptr::lock` is STL code, not in the repository): a usable
handle exists exactly when the weak member is engaged and some strong
reference to A is still alive; otherwise the result is absent. -/
def resolveWeakA (s : WPState) : Option Unit :=
  if s.bMemberA ∧ 0 < s.aStrong then some () else none

/-- State after `shared_ptr<A> a = make_shared<A>()` in `main`. -/
def afterMakeA : WPState :=
  { aAlive := true, bAlive := false, aStrong := 1, bStrong := 0,
    aMemberB := false, bMemberA := false, dtorLog := [] }

/-- State after `shared_ptr<B> b = make_shared<B>()` in `main`. -/
def afterMakeB : WPState :=
  { afterMakeA with bAlive := true, bStrong := 1 }

/-- State after `a->set_B(b)`: the member `b_ptr` copies the shared pointer, so the
strong count of B rises to two. -/
def afterSetB : WPState :=
  { afterMakeB with aMemberB := true, bStrong := afterMakeB.bStrong + 1 }

/-- State after `b->set_A(a)`: the member `a_ptr` is a weak pointer, so no strong count
changes. -/
def afterSetA : WPState :=
  { afterSetB with bMemberA := true }

/-- Scope exit of `main`, first half: locals are destroyed in reverse
declaration order, so the local `b` is destroyed first. -/
def afterDropLocalB : WPState :=
  dropStrongB afterSetA

/-- Scope exit of `main`, second half: the local `a` is destroyed; this takes
the strong count of A to zero, runs `~A()`, which releases the member strong
reference to B and thereby runs `~B()`. -/
def finalState : WPState :=
  dropStrongA afterDropLocalB

/-- Modelled from the spec: the ownership-link helper of section 4.3
(`std::shared_ptr` / `std::weak_ptr` are STL types, not repository code).
A reference cell carries the shared value and the number of live strong
references; weak references observe the cell without owning it. -/
structure RefCell (T : Type) where
  strong : Nat
  value : T
deriving DecidableEq, Repr

/-- Modelled from the spec: `make_strong` allocates a cell owned by exactly
one strong reference. -/
def make_strong {T : Type} (v : T) : RefCell T :=
  { strong := 1, value := v }

/-- Modelled from the spec: releasing one strong reference; the referent is
released when the count reaches zero. -/
def releaseStrong {T : Type} (c : RefCell T) : RefCell T :=
  { c with strong := c.strong - 1 }

/-- Modelled from the spec: `resolve` on a weak reference observing cell `c`
returns the live value wrapped for temporary strong access if the strong
owner has not released it, else absent. -/
def resolve {T : Type} (c : RefCell T) : Option T :=
  if c.strong = 0 then none else some c.value

/-- Claim C7: resolving a weak reference whose strong owner has been released
returns absent; resolving while a strong owner is live returns a handle to
the same value; and in the A/B scenario of the source, B can resolve its weak
reference while the local strong reference to A exists, releasing A makes the
resolve absent, and both objects are destroyed exactly once with no
destruction cycle. -/
theorem weak_resolve_semantics {T : Type} (v : T) (c : RefCell T)
    (hlive : 0 < c.strong) :
    resolve (releaseStrong (make_strong v)) = none ∧
    resolve c = some c.value ∧
    resolveWeakA afterDropLocalB = some () ∧
    resolveWeakA finalState = none ∧
    finalState.dtorLog = [Obj.A, Obj.B] ∧
    finalState.aAlive = false ∧
    finalState.bAlive = false := by
  refine ⟨rfl, ?_, rfl, rfl, rfl, rfl, rfl⟩
  unfold resolve
  rw [if_neg (by omega)]

theorem weak_resolve_semantics_witness :
    0 < (make_strong (5 : ℤ)).strong ∧
    resolve (releaseStrong (make_strong (5 : ℤ))) = none ∧
    resolve (make_strong (5 : ℤ)) = some 5 :=
  ⟨by decide,
   (weak_resolve_semantics (5 : ℤ) (make_strong 5) (by decide)).1,
   (weak_resolve_semantics (5 : ℤ) (make_strong 5) (by decide)).2.1⟩

/-- Claim C10: at program exit each of the two heap objects is destroyed exactly
once, the A object strictly before the B object; B is still alive after the
local `b` handle is gone (it survives exactly as long as the strong member
reference inside A), and the weak back-reference installed by `set_A` does
not change the strong count of A, so it never extends the lifetime of A. -/
theorem ab_destroyed_once_a_before_b :
    finalState.dtorLog = [Obj.A, Obj.B] ∧
    finalState.dtorLog.count Obj.A = 1 ∧
    finalState.dtorLog.count Obj.B = 1 ∧
    afterDropLocalB.aAlive = true ∧
    afterDropLocalB.bAlive = true ∧
    finalState.aAlive = false ∧
    finalState.bAlive = false ∧
    afterSetA.aStrong = afterSetB.aStrong ∧
    afterSetA.aStrong = 1 := by
  decide

end WeakPointers
